import Mathlib

/-
  Verification of the partitioned-archive reader (`src/eda/io_tar.py`) and the
  prevalence calculator (`src/eda/prevalence.py`) of the EDA toolkit.

  The Python code is shallowly embedded: paths are strings manipulated at the
  character-list level (so that everything evaluates inside the kernel), pandas
  DataFrames become the rectangular `Table` structure, tar members become
  `Member` values whose parquet payload is represented by the table their bytes
  decode to (or a decode error), and the reader's control flow (candidate
  selection, partition filtering, truncation, per-member decode + partition
  column injection, outer-union concatenation) is translated function by
  function from the source.
-/

set_option autoImplicit false

namespace EdaModel

/-! ## Character-level string helpers

Executable analogues of the Python `str` operations used by `io_tar.py`:
`path.split("/")`, `seg.split("=", 1)` (= split at the first occurrence),
`s.lower()`, `s.startswith(p)`, `s.endswith(p)`, and the pure-digit regex
`\d+` together with `int(v)` decimal parsing. -/

/-- `path.split(c)` on character lists: splits on every occurrence of `c`;
the empty list yields `[[]]`, mirroring `"".split(c) == [""]`. -/
def splitChars (c : Char) : List Char → List (List Char)
  | [] => [[]]
  | x :: xs =>
    let r := splitChars c xs
    if x = c then [] :: r
    else
      match r with
      | h :: t => (x :: h) :: t
      | [] => [[x]]

/-- `s.split(c, 1)`: `none` when `c` does not occur (Python's `c in s` test
fails), otherwise the part before and the part after the first occurrence. -/
def splitOnceChar (c : Char) : List Char → Option (List Char × List Char)
  | [] => none
  | x :: xs =>
    if x = c then some ([], xs)
    else (splitOnceChar c xs).map (fun p => (x :: p.1, p.2))

/-- `s.startswith(p)` on character lists. -/
def isPre : List Char → List Char → Bool
  | [], _ => true
  | _ :: _, [] => false
  | a :: as, b :: bs => a = b && isPre as bs

/-- `s.endswith(p)` on character lists. -/
def isSuf (a b : List Char) : Bool := isPre a.reverse b.reverse

/-- `s.lower()` (ASCII, which covers the archive names in scope). -/
def lowerChars (l : List Char) : List Char := l.map Char.toLower

/-- `re.fullmatch(r"\d+", v)`: nonempty and all decimal digits. -/
def isDigits (l : List Char) : Bool := !l.isEmpty && l.all Char.isDigit

/-- `int(v)` for a pure-digit string: decimal parsing. -/
def parseNatChars (l : List Char) : Nat := l.foldl (fun a c => a * 10 + (c.toNat - 48)) 0

/-! ## Scalar values and the partition dictionary

Cells of a decoded table and partition values share one scalar type:
Python ints, strings, and the missing-value marker `NaN` that pandas
introduces during outer-union concatenation. -/

/-- A scalar cell value of a decoded table / partition descriptor. -/
inductive Value where
  | int (n : Int)
  | str (s : String)
  | nan
deriving DecidableEq, Repr

/-- Lines 39-41 of `io_tar.py`: `if re.fullmatch(r"\d+", v): v = int(v)` —
a pure-digit value is promoted to an integer, anything else stays a string. -/
def coerceVal (v : String) : Value :=
  if isDigits v.data then Value.int (parseNatChars v.data) else Value.str v

/-- Python `dict` assignment `kv[k] = v` on an association list: overwrite the
existing binding in place, or append a fresh one (insertion order kept). -/
def dictInsert : List (String × Value) → String → Value → List (String × Value)
  | [], k, v => [(k, v)]
  | p :: ps, k, v => if p.1 = k then (k, v) :: ps else p :: dictInsert ps k v

/-- Python `dict` lookup `kv[k]` (as an option): first binding of `k`. -/
def dictGet? : List (String × Value) → String → Option Value
  | [], _ => none
  | p :: ps, k => if p.1 = k then some p.2 else dictGet? ps k

/-- Lines 36-37 of `io_tar.py`: `if "=" in seg: k, v = seg.split("=", 1)`. -/
def segKV? (seg : List Char) : Option (String × String) :=
  (splitOnceChar '=' seg).map (fun p => (String.mk p.1, String.mk p.2))

/-- One iteration of the loop body of `_parse_partitions_from_path`
(lines 35-41): keep the binding only when the key is expected. -/
def parseStep (expected_keys : List String) (kv : List (String × Value))
    (seg : List Char) : List (String × Value) :=
  match segKV? seg with
  | some kvp => if kvp.1 ∈ expected_keys then dictInsert kv kvp.1 (coerceVal kvp.2) else kv
  | none => kv

/-- `_parse_partitions_from_tar.py` lines 29-42: extract `key=value` segments
from a `/`-separated path, keeping expected keys, promoting digit values. -/
def _parse_partitions_from_path (path : String) (expected_keys : List String) :
    List (String × Value) :=
  (splitChars '/' path.data).foldl (parseStep expected_keys) []

/-- Spec-side characterisation helper: the raw value of the last `k=...`
segment among a list of path segments (later segments win, as successive
`dict` assignments overwrite earlier ones). -/
def lastSegVal : List (List Char) → String → Option String
  | [], _ => none
  | seg :: rest, k =>
    match lastSegVal rest k with
    | some v => some v
    | none =>
      match segKV? seg with
      | some kvp => if kvp.1 = k then some kvp.2 else none
      | none => none

/-! ## Tables (the pandas `DataFrame` fragment the reader uses) -/

/-- A rectangular in-memory table: ordered column names and rows of cells
aligned with the column list. -/
structure Table where
  cols : List String
  rows : List (List Value)
deriving DecidableEq, Repr

/-- Index of the first occurrence of a column name. -/
def idxOf? (c : String) : List String → Option Nat
  | [] => none
  | x :: xs => if x = c then some 0 else (idxOf? c xs).map (· + 1)

/-- `df[c]`: the cell of each row at column `c` (empty when `c` is absent). -/
def Table.getCol (t : Table) (c : String) : List Value :=
  match idxOf? c t.cols with
  | some i => t.rows.map (fun r => r.getD i Value.nan)
  | none => []

/-- `df[k] = v` for a fresh column `k`: appended, uniformly populated. -/
def Table.addCol (t : Table) (k : String) (v : Value) : Table :=
  ⟨t.cols ++ [k], t.rows.map (fun r => r ++ [v])⟩

/-- Rectangularity: every row has exactly one cell per column (true of every
pandas DataFrame). -/
def Table.WF (t : Table) : Prop := ∀ r ∈ t.rows, r.length = t.cols.length

instance decidableTableWF (t : Table) : Decidable t.WF :=
  inferInstanceAs (Decidable (∀ r ∈ t.rows, r.length = t.cols.length))

/-- Column set of `pd.concat(frames, sort=False)`: union of the frames'
columns in order of first appearance. -/
def unionCols (frames : List Table) : List String :=
  frames.foldl (fun acc t => acc ++ t.cols.filter (fun c => decide (c ∉ acc))) []

/-- Reindex one row of a frame to the concatenated column list; columns the
frame lacks get the missing marker. -/
def reindexRow (tcols : List String) (row : List Value) (allCols : List String) :
    List Value :=
  allCols.map (fun c =>
    match idxOf? c tcols with
    | some i => row.getD i Value.nan
    | none => Value.nan)

/-- `pd.concat(frames, ignore_index=True, sort=False)` (line 123): outer union
of columns, frame order and row order preserved, null-fill for absent columns. -/
def concatOuter (frames : List Table) : Table :=
  let allCols := unionCols frames
  ⟨allCols, (frames.map (fun t => t.rows.map (fun r => reindexRow t.cols r allCols))).flatten⟩

/-! ## The archive reader (`read_parquet_partitions_from_tar`, lines 44-127) -/

/-- A tar member: its internal path, the regular-file flag, and its payload
modelled by what `pd.read_parquet` yields on the extracted bytes for a given
column projection (a table, or a decode error). -/
structure Member where
  name : String
  isreg : Bool
  decodeFn : Option (List String) → Except String Table

/-- A tar archive: its members in the archive's own internal order. -/
structure Archive where
  members : List Member

/-- The reader's failure taxonomy (§7 of the design): missing archive path
(the `assert` on line 82), no candidate entries (line 108, message naming the
prefix and the archive), or a propagated decode failure (line 115). -/
inductive ReadError where
  | notFound (path : String)
  | noMatch (pref : String) (archive : String)
  | decodeError (msg : String)
deriving DecidableEq, Repr

/-- Lines 85-90: regular files whose lower-cased name starts with the
lower-cased prefix and ends with `.parquet`. -/
def candidateMembers (tar : Archive) (pref : String) : List Member :=
  tar.members.filter (fun m =>
    m.isreg && isPre (lowerChars pref.data) (lowerChars m.name.data)
      && isSuf ".parquet".data (lowerChars m.name.data))

/-- Lines 96-101: a member passes the partition filter when every filter key
that its descriptor carries has an allowed value. -/
def memberAllowed (m : Member) (expected_keys : List String)
    (ap : List (String × List Value)) : Bool :=
  let part_info := _parse_partitions_from_path m.name expected_keys
  ap.all (fun ka =>
    match dictGet? part_info ka.1 with
    | some v => decide (v ∈ ka.2)
    | none => true)

/-- Lines 93-102: `if allowed_partitions:` — `None` and the empty dict skip
filtering (Python truthiness), otherwise keep the allowed members. -/
def filterAllowed (ms : List Member) (expected_keys : List String)
    (ap? : Option (List (String × List Value))) : List Member :=
  match ap? with
  | none => ms
  | some ap =>
    if ap.isEmpty then ms else ms.filter (fun m => memberAllowed m expected_keys ap)

/-- Lines 104-105: truncate to the first `max_parts` members when the list is
longer than that. -/
def truncateParts (ms : List Member) (max_parts : Option Nat) : List Member :=
  match max_parts with
  | none => ms
  | some mp => if ms.length > mp then ms.take mp else ms

/-- The full candidate-selection pipeline (lines 85-105): prefix/extension
matching, then partition filtering, then `max_parts` truncation. -/
def selectMembers (tar : Archive) (pref : String) (expected_keys : List String)
    (ap? : Option (List (String × List Value))) (max_parts : Option Nat) : List Member :=
  truncateParts (filterAllowed (candidateMembers tar pref) expected_keys ap?) max_parts

/-- Lines 118-120: inject each descriptor binding as a uniform column when the
decoded table does not already have a column of that name. -/
def injectPartitions (df : Table) (part_info : List (String × Value)) : Table :=
  part_info.foldl
    (fun df kv => if decide (kv.1 ∈ df.cols) then df else df.addCol kv.1 kv.2) df

/-- Lines 111-121 for one member: decode its payload (any decode failure
propagates) and inject the recovered partition columns. -/
def processMember (m : Member) (expected_keys : List String)
    (columns : Option (List String)) : Except String Table :=
  match m.decodeFn columns with
  | Except.error e => Except.error e
  | Except.ok df =>
      Except.ok (injectPartitions df (_parse_partitions_from_path m.name expected_keys))

/-- The `for m in members` loop of lines 110-121: process members in order,
aborting on the first decode failure (the exception propagates; no skipping). -/
def decodeAll (expected_keys : List String) (columns : Option (List String)) :
    List Member → Except String (List Table)
  | [] => Except.ok []
  | m :: ms =>
    match processMember m expected_keys columns with
    | Except.error e => Except.error e
    | Except.ok df =>
      match decodeAll expected_keys columns ms with
      | Except.error e => Except.error e
      | Except.ok rest => Except.ok (df :: rest)

/-- `read_parquet_partitions_from_tar` (lines 44-127).  The filesystem is
abstracted to the optional archive found at `tar_path` (`none` = the path does
not exist, making the line-82 `assert` fail); `tarName` is `tar_path.name`,
used in error messages. -/
def read_parquet_partitions_from_tar (archive? : Option Archive) (tarName : String)
    (pref : String) (expected_keys : List String)
    (allowed_partitions : Option (List (String × List Value)))
    (columns : Option (List String)) (max_parts : Option Nat) :
    Except ReadError Table :=
  match archive? with
  | none => Except.error (ReadError.notFound tarName)
  | some tar =>
    let members := selectMembers tar pref expected_keys allowed_partitions max_parts
    if members.isEmpty then Except.error (ReadError.noMatch pref tarName)
    else
      match decodeAll expected_keys columns members with
      | Except.error e => Except.error (ReadError.decodeError e)
      | Except.ok frames => Except.ok (concatOuter frames)

/-! ## Temporary-file lifecycle of the decode loop (lines 112-117)

Each member's bytes are written to a fresh `NamedTemporaryFile` and the
`try/finally` around `pd.read_parquet` unlinks it whether or not the decode
raises; on a raise the exception then propagates and the loop stops.  The
trace below records exactly the create/delete events of that loop. -/

/-- A temporary-file event: creation or deletion of the scratch file used for
the `i`-th processed member. -/
inductive TmpEvent where
  | create (i : Nat)
  | delete (i : Nat)
deriving DecidableEq, Repr

/-- Temporary-file events emitted by the decode loop starting at member index
`i`: per member one create, then the decode attempt, then the `finally` unlink;
a decode failure still unlinks and then aborts the loop. -/
def decodeLoopTrace (columns : Option (List String)) : List Member → Nat → List TmpEvent
  | [], _ => []
  | m :: ms, i =>
    match m.decodeFn columns with
    | Except.ok _ => TmpEvent.create i :: TmpEvent.delete i :: decodeLoopTrace columns ms (i + 1)
    | Except.error _ => [TmpEvent.create i, TmpEvent.delete i]

/-! ## Prevalence calculator (`prevalence.py`)

`prevalence_table` computes, for each recognised binary target column, the
mean over the whole table ("ALL") and per `mon` / per `fold` group, then
transposes and sorts rows by their label.  Means are modelled exactly over the
rationals; pandas' `.mean()` skips missing values, so only integer cells are
averaged. -/

/-- The row label of a group key (`f"mon=\x7bm\x7d"` uses Python `str`). -/
def valLabel : Value → String
  | Value.int n => toString n
  | Value.str s => s
  | Value.nan => "nan"

/-- The numeric cells of a column (pandas `.mean()` skips missing values). -/
def numCells (vs : List Value) : List Int :=
  vs.filterMap (fun v => match v with | Value.int n => some n | _ => none)

/-- `float(df[c].mean())` over the rationals: sum of the numeric cells divided
by their count. -/
def colMeanQ (vs : List Value) : ℚ :=
  (((numCells vs).map (fun (n : Int) => (n : ℚ))).sum) / (((numCells vs).length : ℚ))

/-- Distinct values in order of first appearance. -/
def distinctVals (vs : List Value) : List Value :=
  vs.foldl (fun acc v => if v ∈ acc then acc else acc ++ [v]) []

/-- The group keys of `df.groupby(col)`: distinct non-missing values of the
column (pandas drops missing group keys). -/
def groupKeys (vs : List Value) : List Value :=
  distinctVals (vs.filter (fun v => decide (v ≠ Value.nan)))

/-- The cell of one row at a named column. -/
def rowVal (cols : List String) (r : List Value) (c : String) : Value :=
  match idxOf? c cols with
  | some i => r.getD i Value.nan
  | none => Value.nan

/-- One group of `df.groupby(key)`: the rows whose `key` column equals `v`. -/
def groupTable (df : Table) (key : String) (v : Value) : Table :=
  ⟨df.cols, df.rows.filter (fun r => decide (rowVal df.cols r key = v))⟩

/-- Lexicographic (code-point) order on character lists, as pandas
`sort_index` orders string labels. -/
def lexLt : List Char → List Char → Bool
  | [], [] => false
  | [], _ :: _ => true
  | _ :: _, [] => false
  | a :: as, b :: bs => if a = b then lexLt as bs else decide (a.toNat < b.toNat)

/-- String order used to sort the result rows by label. -/
def strLt (a b : String) : Bool := lexLt a.data b.data

/-- Insertion step of the label sort. -/
def insertByLabel (x : String × List (String × ℚ)) :
    List (String × List (String × ℚ)) → List (String × List (String × ℚ))
  | [] => [x]
  | y :: ys => if strLt y.1 x.1 then y :: insertByLabel x ys else x :: y :: ys

/-- `DataFrame.sort_index()`: sort the labelled rows by label. -/
def sortByLabel (l : List (String × List (String × ℚ))) :
    List (String × List (String × ℚ)) :=
  l.foldr insertByLabel []

/-- The target indicator columns `prevalence_table` recognises (line 11). -/
def targetColNames : List String := ["target_1", "target_2", "target_3", "target_4"]

/-- The recognised target columns actually present in a table. -/
def presentTargets (df : Table) : List String :=
  targetColNames.filter (fun c => decide (c ∈ df.cols))

/-- Python `dict` assignment `out[lab] = row` for the label-keyed row dict of
`prevalence_table` (lines 14-21): overwrite the existing binding in place, or
append a fresh one (insertion order kept).  Two distinct group values whose
formatted labels coincide therefore collapse into one row, the later write
winning. -/
def rowInsert : List (String × List (String × ℚ)) → String → List (String × ℚ) →
    List (String × List (String × ℚ))
  | [], lab, row => [(lab, row)]
  | p :: ps, lab, row =>
    if p.1 = lab then (lab, row) :: ps else p :: rowInsert ps lab row

/-- Key-level shadow of `rowInsert`: the key list gains `k` at the end when
absent and is unchanged when present. -/
def keyInsert (ks : List String) (k : String) : List String :=
  if k ∈ ks then ks else ks ++ [k]

/-- Distinct strings in order of first appearance. -/
def distinctStrs (l : List String) : List String := l.foldl keyInsert []

/-- `prevalence_table` (`prevalence.py` lines 7-23): rows are accumulated in a
dict keyed by the formatted label (`"ALL"`, `"mon=..."`, `"fold=..."`), one
entry per recognised target column holding that group's mean; empty when no
recognised target column exists; finally `pd.DataFrame(out).T.sort_index()`
sorts the rows by label. -/
def prevalence_table (df_targets : Table) : List (String × List (String × ℚ)) :=
  let cols := presentTargets df_targets
  if cols.isEmpty then []
  else
    let out0 := rowInsert [] "ALL"
      (cols.map (fun c => (c, colMeanQ (df_targets.getCol c))))
    let out1 :=
      if "mon" ∈ df_targets.cols then
        (groupKeys (df_targets.getCol "mon")).foldl (fun out v =>
          rowInsert out ("mon=" ++ valLabel v)
            (cols.map (fun c =>
              (c, colMeanQ ((groupTable df_targets "mon" v).getCol c))))) out0
      else out0
    let out2 :=
      if "fold" ∈ df_targets.cols then
        (groupKeys (df_targets.getCol "fold")).foldl (fun out v =>
          rowInsert out ("fold=" ++ valLabel v)
            (cols.map (fun c =>
              (c, colMeanQ ((groupTable df_targets "fold" v).getCol c))))) out1
      else out1
    sortByLabel out2

/-! ## Concrete data used by the counterexample and the witnesses -/

/-- A member whose name does not lie under the `targets/` prefix. -/
def wOtherMember : Member :=
  ⟨"other/x.parquet", true, fun _ => Except.ok ⟨[], []⟩⟩

/-- An archive with no member under `targets/`. -/
def wArchNoMatch : Archive := ⟨[wOtherMember]⟩

/-- A decoded single-column table used by the injection witness. -/
def wDf : Table := ⟨["x"], [[Value.int 10]]⟩

/-- A member of partition `fold=1` decoding to `wDf`. -/
def wFoldMember : Member :=
  ⟨"data/fold=1/a.parquet", true, fun _ => Except.ok wDf⟩

/-- The table `wFoldMember` contributes after partition-column injection. -/
def wOut : Table := ⟨["x", "fold"], [[Value.int 10, Value.int 1]]⟩

/-- A single-member archive that reads successfully. -/
def wArchOk : Archive := ⟨[wFoldMember]⟩

/-- A member whose payload does not decode. -/
def wBadMember : Member :=
  ⟨"data/fold=2/bad.parquet", true, fun _ => Except.error "corrupt parquet stream"⟩

/-- An archive containing one undecodable member. -/
def wArchBad : Archive := ⟨[wFoldMember, wBadMember]⟩

/-- A member whose path carries no `fold=` segment but whose decoded table has
its own `fold` column with value 5: retained by the filter (open world), it
puts `fold = 5` into the unified table. -/
def cxMember : Member :=
  ⟨"data/a.parquet", true, fun _ => Except.ok ⟨["fold"], [[Value.int 5]]⟩⟩

/-- The archive of the C4 counterexample. -/
def cxArch : Archive := ⟨[cxMember]⟩

/-- The `allowed_partitions` filter of the C4 counterexample and scenarios:
`fold` restricted to the set of integers 0 and 1. -/
def fold01 : List (String × List Value) := [("fold", [Value.int 0, Value.int 1])]

/-- The targets table of the C9 scenario: one column `target_1 = [1,0,1,0]`. -/
def wTargets : Table :=
  ⟨["target_1"], [[Value.int 1], [Value.int 0], [Value.int 1], [Value.int 0]]⟩

/-- A targets table whose `mon` column holds the two distinct group values
`1` (integer) and `"1"` (string): both format to the label `mon=1`, so the
code's label-keyed dict keeps a single `mon=1` row. -/
def dfMixed : Table :=
  ⟨["target_1", "mon"],
    [[Value.int 1, Value.int 1], [Value.int 0, Value.str "1"]]⟩

/-! ## Lemmas about the partition dictionary and path parsing -/

theorem dictGet?_insert_self (kv : List (String × Value)) (k : String) (v : Value) :
    dictGet? (dictInsert kv k v) k = some v := by
  induction kv with
  | nil => simp [dictInsert, dictGet?]
  | cons p ps ih =>
    by_cases h : p.1 = k
    · simp [dictInsert, h, dictGet?]
    · simp [dictInsert, h, dictGet?, ih]

theorem dictGet?_insert_ne (kv : List (String × Value)) (k k' : String) (v : Value)
    (h : k' ≠ k) : dictGet? (dictInsert kv k v) k' = dictGet? kv k' := by
  have hne : ¬k = k' := fun hh => h hh.symm
  induction kv with
  | nil => simp [dictInsert, dictGet?, hne]
  | cons p ps ih =>
    by_cases hp : p.1 = k
    · subst hp
      have hne' : ¬p.1 = k' := hne
      simp [dictInsert, dictGet?, hne']
    · simp only [dictInsert, if_neg hp, dictGet?]
      by_cases hp' : p.1 = k'
      · simp [hp']
      · simp [hp', ih]

theorem dictGet?_parseStep (ek : List String) (kv : List (String × Value))
    (seg : List Char) (k : String) :
    dictGet? (parseStep ek kv seg) k =
      match segKV? seg with
      | some kvp =>
          if kvp.1 = k ∧ k ∈ ek then some (coerceVal kvp.2) else dictGet? kv k
      | none => dictGet? kv k := by
  unfold parseStep
  cases h : segKV? seg with
  | none => rfl
  | some kvp =>
    by_cases h1 : kvp.1 ∈ ek
    · by_cases h2 : kvp.1 = k
      · subst h2
        simp [h1, dictGet?_insert_self]
      · simp [h1, h2,
          dictGet?_insert_ne kv kvp.1 k (coerceVal kvp.2) (fun hh => h2 hh.symm)]
    · have hcond : ¬(kvp.1 = k ∧ k ∈ ek) := fun hh => h1 (hh.1 ▸ hh.2)
      simp [h1, hcond]

theorem parse_foldl_get (k : String) (ek : List String) :
    ∀ (segs : List (List Char)) (kv : List (String × Value)),
    dictGet? (segs.foldl (parseStep ek) kv) k =
      if k ∈ ek then
        match lastSegVal segs k with
        | some v => some (coerceVal v)
        | none => dictGet? kv k
      else dictGet? kv k := by
  intro segs
  induction segs with
  | nil => intro kv; simp [lastSegVal]
  | cons seg segs ih =>
    intro kv
    rw [List.foldl_cons, ih (parseStep ek kv seg), dictGet?_parseStep]
    by_cases hk : k ∈ ek
    · simp only [if_pos hk]
      cases hrest : lastSegVal segs k with
      | some v => simp [lastSegVal, hrest]
      | none =>
        cases hseg : segKV? seg with
        | none => simp [lastSegVal, hrest, hseg]
        | some kvp =>
          by_cases h2 : kvp.1 = k
          · simp [lastSegVal, hrest, hseg, h2, hk]
          · simp [lastSegVal, hrest, hseg, h2, hk]
    · simp only [if_neg hk]
      cases hseg : segKV? seg with
      | none => rfl
      | some kvp =>
        have hcond : ¬(kvp.1 = k ∧ k ∈ ek) := fun hh => hk hh.2
        simp [hcond]

/-! ## Claim theorems -/

/-- C2: for every entry path, the recovered partition descriptor contains
exactly the expected keys that occur as `key=value` path segments (the last
such segment deciding the value), a pure-digit value being stored as an
integer and any other value as a string; in particular a path containing
`fold=7` yields `fold ↦ 7` (integer) and `fold=abc` yields `fold ↦ "abc"`. -/
theorem c2_partition_descriptor_roundtrip :
    (∀ (path : String) (ek : List String) (k : String),
        dictGet? (_parse_partitions_from_path path ek) k =
          if k ∈ ek then (lastSegVal (splitChars '/' path.data) k).map coerceVal
          else none) ∧
    _parse_partitions_from_path "targets/fold=7/part-0.parquet" ["fold"] =
        [("fold", Value.int 7)] ∧
    _parse_partitions_from_path "targets/fold=abc/part-0.parquet" ["fold"] =
        [("fold", Value.str "abc")] := by
  refine ⟨fun path ek k => ?_, by decide, by decide⟩
  rw [_parse_partitions_from_path, parse_foldl_get k ek (splitChars '/' path.data) []]
  by_cases hk : k ∈ ek
  · simp only [if_pos hk]
    cases lastSegVal (splitChars '/' path.data) k <;> simp [dictGet?]
  · simp [hk, dictGet?]

/-- C10: a pure-digit segment value, leading zeros included, is stored as the
decimally parsed integer (`007` becomes the integer 7, the leading zeros are
lost), while a signed value such as `-3` does not match the pure-digit pattern
and is kept as the string `"-3"`; no string starting with `-` ever counts as
pure-digit. -/
theorem c10_leading_zeros_and_signed_values :
    _parse_partitions_from_path "data/fold=007/f.parquet" ["fold"] =
        [("fold", Value.int 7)] ∧
    coerceVal "007" = coerceVal "7" ∧
    _parse_partitions_from_path "data/fold=-3/f.parquet" ["fold"] =
        [("fold", Value.str "-3")] ∧
    (∀ s : String, coerceVal (String.mk ('-' :: s.data)) =
        Value.str (String.mk ('-' :: s.data))) := by
  refine ⟨by decide, by decide, by decide, fun s => ?_⟩
  have hd : isDigits ('-' :: s.data) = false := by
    simp [isDigits, List.all_cons, (by decide : ('-').isDigit = false)]
  simp [coerceVal, hd]

/-- C7: when the archive path does not exist on the filesystem, the reader
fails immediately with the not-found error, before any other processing. -/
theorem c7_missing_archive_not_found (tarName pref : String) (ek : List String)
    (ap : Option (List (String × List Value))) (cols : Option (List String))
    (mp : Option Nat) :
    read_parquet_partitions_from_tar none tarName pref ek ap cols mp =
      Except.error (ReadError.notFound tarName) := rfl

/-- C1: whenever zero candidate entries remain after prefix/extension
matching, partition filtering and `max_parts` truncation, the reader fails
with the no-match error naming the prefix and the archive, and in particular
never returns any table, empty or otherwise. -/
theorem c1_empty_selection_no_match (tar : Archive) (tarName pref : String)
    (ek : List String) (ap : Option (List (String × List Value)))
    (cols : Option (List String)) (mp : Option Nat)
    (h : selectMembers tar pref ek ap mp = []) :
    read_parquet_partitions_from_tar (some tar) tarName pref ek ap cols mp =
        Except.error (ReadError.noMatch pref tarName) ∧
    ∀ t : Table,
      read_parquet_partitions_from_tar (some tar) tarName pref ek ap cols mp ≠
        Except.ok t := by
  have h1 : read_parquet_partitions_from_tar (some tar) tarName pref ek ap cols mp =
      Except.error (ReadError.noMatch pref tarName) := by
    simp [read_parquet_partitions_from_tar, h]
  exact ⟨h1, fun t ht => by rw [h1] at ht; exact Except.noConfusion ht⟩

/-- Witness for C1 at a concrete archive whose sole member lies outside the
requested prefix. -/
theorem c1_empty_selection_no_match_witness :
    read_parquet_partitions_from_tar (some wArchNoMatch) "t.tar.gz" "targets/"
        ["fold"] none none none =
      Except.error (ReadError.noMatch "targets/" "t.tar.gz") :=
  (c1_empty_selection_no_match wArchNoMatch "t.tar.gz" "targets/" ["fold"]
    none none none rfl).1

/-! ## Decode-failure propagation -/

theorem decodeAll_error_of_mem (ek : List String) (cols : Option (List String))
    (ms : List Member) (m : Member) (msg : String)
    (hm : m ∈ ms) (hf : m.decodeFn cols = Except.error msg) :
    ∃ e, decodeAll ek cols ms = Except.error e := by
  induction ms with
  | nil => cases hm
  | cons m0 ms ih =>
    cases hp : processMember m0 ek cols with
    | error e => exact ⟨e, by simp [decodeAll, hp]⟩
    | ok df =>
      rcases List.mem_cons.mp hm with hh | hh
      · subst hh
        rw [processMember, hf] at hp
        exact absurd hp (by simp)
      · obtain ⟨e, he⟩ := ih hh
        exact ⟨e, by simp [decodeAll, hp, he]⟩

/-- C5: if the payload of any single retained entry fails to decode, the whole
read fails with a decode error: no table — partial or otherwise — is ever
returned, no entry is skipped. -/
theorem c5_decode_failure_aborts_whole_read (tar : Archive) (tarName pref : String)
    (ek : List String) (ap : Option (List (String × List Value)))
    (cols : Option (List String)) (mp : Option Nat) (m : Member) (msg : String)
    (hm : m ∈ selectMembers tar pref ek ap mp)
    (hf : m.decodeFn cols = Except.error msg) :
    (∃ e, read_parquet_partitions_from_tar (some tar) tarName pref ek ap cols mp =
        Except.error (ReadError.decodeError e)) ∧
    ∀ t : Table,
      read_parquet_partitions_from_tar (some tar) tarName pref ek ap cols mp ≠
        Except.ok t := by
  have hne : (selectMembers tar pref ek ap mp).isEmpty = false := by
    cases hsel : selectMembers tar pref ek ap mp with
    | nil => rw [hsel] at hm; cases hm
    | cons a l => rfl
  obtain ⟨e, he⟩ := decodeAll_error_of_mem ek cols _ m msg hm hf
  have h1 : read_parquet_partitions_from_tar (some tar) tarName pref ek ap cols mp =
      Except.error (ReadError.decodeError e) := by
    simp [read_parquet_partitions_from_tar, hne, he]
  exact ⟨⟨e, h1⟩, fun t ht => by rw [h1] at ht; exact Except.noConfusion ht⟩

/-- Witness for C5 at a concrete archive whose second member is undecodable. -/
theorem c5_decode_failure_aborts_whole_read_witness :
    ∃ e, read_parquet_partitions_from_tar (some wArchBad) "t.tar.gz" "data/"
        ["fold"] none none none =
      Except.error (ReadError.decodeError e) :=
  (c5_decode_failure_aborts_whole_read wArchBad "t.tar.gz" "data/" ["fold"]
    none none none wBadMember "corrupt parquet stream"
    (show wBadMember ∈ [wFoldMember, wBadMember] from
      List.mem_cons_of_mem _ (List.mem_cons_self _ _)) rfl).1

/-- C6: the decode loop's temporary-file trace is a concatenation of adjacent
create/delete pairs — for every processed entry the temporary file is deleted
immediately after its decode attempt (so before the next entry is processed),
whether or not the decode succeeded, and no temporary path survives the
attempt. -/
theorem c6_temp_file_scoped_per_entry (cols : Option (List String))
    (ms : List Member) (i : Nat) :
    ∃ n, n ≤ ms.length ∧
      decodeLoopTrace cols ms i =
        ((List.range' i n).map
          (fun j => [TmpEvent.create j, TmpEvent.delete j])).flatten := by
  induction ms generalizing i with
  | nil => exact ⟨0, Nat.le_refl 0, by simp [decodeLoopTrace]⟩
  | cons m ms ih =>
    cases h : m.decodeFn cols with
    | error e =>
      refine ⟨1, Nat.succ_le_succ (Nat.zero_le _), ?_⟩
      simp [decodeLoopTrace, h, List.range']
    | ok df =>
      obtain ⟨n, hn, ht⟩ := ih (i + 1)
      refine ⟨n + 1, Nat.succ_le_succ hn, ?_⟩
      simp [decodeLoopTrace, h, ht, List.range'_succ]

/-- C8: the read is deterministic in its inputs — two calls with identical
arguments that both return a table return tables with the same row count, the
same column list, and the same column-wise value multisets. -/
theorem c8_read_deterministic (archive? : Option Archive) (tarName pref : String)
    (ek : List String) (ap : Option (List (String × List Value)))
    (cols : Option (List String)) (mp : Option Nat) (out₁ out₂ : Table)
    (h1 : read_parquet_partitions_from_tar archive? tarName pref ek ap cols mp =
        Except.ok out₁)
    (h2 : read_parquet_partitions_from_tar archive? tarName pref ek ap cols mp =
        Except.ok out₂) :
    out₁.rows.length = out₂.rows.length ∧ out₁.cols = out₂.cols ∧
    ∀ c, (out₁.getCol c : Multiset Value) = (out₂.getCol c : Multiset Value) := by
  rw [h1] at h2
  have h3 : out₁ = out₂ := by injection h2
  subst h3
  exact ⟨rfl, rfl, fun c => rfl⟩

/-- Witness for C8 at a concrete successful read. -/
theorem c8_read_deterministic_witness :
    wOut.rows.length = wOut.rows.length ∧ wOut.cols = wOut.cols ∧
    ∀ c, (wOut.getCol c : Multiset Value) = (wOut.getCol c : Multiset Value) :=
  c8_read_deterministic (some wArchOk) "t.tar.gz" "data/" ["fold"] none none none
    wOut wOut rfl rfl

/-! ## Column-index lemmas -/

theorem idxOf?_eq_none_iff (c : String) (l : List String) :
    idxOf? c l = none ↔ c ∉ l := by
  induction l with
  | nil => simp [idxOf?]
  | cons x xs ih =>
    rw [idxOf?]
    by_cases h : x = c
    · simp [h]
    · cases hx : idxOf? c xs with
      | none =>
        simp only [if_neg h, hx, Option.map_none', List.mem_cons, true_iff]
        rintro (hc | hc)
        · exact h hc.symm
        · exact (ih.mp hx) hc
      | some i =>
        simp only [if_neg h, hx, Option.map_some', List.mem_cons]
        constructor
        · intro hh; cases hh
        · intro hh
          have hmem : c ∈ xs := by
            by_contra hcx
            rw [← ih] at hcx
            rw [hcx] at hx
            cases hx
          exact absurd (Or.inr hmem) hh

theorem idxOf?_some_of_mem (c : String) (l : List String) (h : c ∈ l) :
    ∃ j, idxOf? c l = some j := by
  cases hx : idxOf? c l with
  | none => exact absurd ((idxOf?_eq_none_iff c l).mp hx) (by simp [h])
  | some j => exact ⟨j, rfl⟩

theorem idxOf?_getElem? (c : String) (l : List String) (j : Nat)
    (h : idxOf? c l = some j) : l[j]? = some c := by
  induction l generalizing j with
  | nil => cases h
  | cons x xs ih =>
    by_cases hx : x = c
    · rw [idxOf?, if_pos hx] at h
      cases h; simpa using hx
    · rw [idxOf?, if_neg hx] at h
      cases hi : idxOf? c xs with
      | none => rw [hi] at h; cases h
      | some i =>
        rw [hi] at h
        cases h
        simpa using ih i hi

theorem idxOf?_lt_length (c : String) (l : List String) (j : Nat)
    (h : idxOf? c l = some j) : j < l.length := by
  have := idxOf?_getElem? c l j h
  exact List.getElem?_eq_some.mp this |>.1

theorem idxOf?_append_left (c : String) (l l' : List String) (i : Nat)
    (h : idxOf? c l = some i) : idxOf? c (l ++ l') = some i := by
  induction l generalizing i with
  | nil => cases h
  | cons x xs ih =>
    by_cases hx : x = c
    · rw [idxOf?, if_pos hx] at h
      cases h
      simp [idxOf?, hx]
    · rw [idxOf?, if_neg hx] at h
      cases hi : idxOf? c xs with
      | none => rw [hi] at h; cases h
      | some i0 =>
        rw [hi] at h
        cases h
        simp [idxOf?, hx, ih i0 hi]

theorem idxOf?_append_new (c : String) (l : List String) (h : c ∉ l) :
    idxOf? c (l ++ [c]) = some l.length := by
  induction l with
  | nil => simp [idxOf?]
  | cons x xs ih =>
    have hx : ¬x = c := fun hh => h (by simp [hh])
    have hxs : c ∉ xs := fun hh => h (by simp [hh])
    simp [idxOf?, hx, ih hxs]

/-! ## Column-injection lemmas (lines 118-120) -/

theorem addCol_WF (t : Table) (k : String) (v : Value) (h : t.WF) :
    (t.addCol k v).WF := by
  intro r hr
  simp only [Table.addCol, List.mem_map] at hr
  obtain ⟨r0, hr0, hrr⟩ := hr
  subst hrr
  simp [Table.addCol, h r0 hr0]

theorem addCol_rows_length (t : Table) (k : String) (v : Value) :
    (t.addCol k v).rows.length = t.rows.length := by
  simp [Table.addCol]

theorem getCol_addCol_old (t : Table) (k k' : String) (v : Value)
    (hwf : t.WF) (hk : k' ∈ t.cols) :
    (t.addCol k v).getCol k' = t.getCol k' := by
  obtain ⟨i, hi⟩ := idxOf?_some_of_mem k' t.cols hk
  have hlt := idxOf?_lt_length k' t.cols i hi
  have hi' : idxOf? k' (t.cols ++ [k]) = some i := idxOf?_append_left k' t.cols [k] i hi
  simp only [Table.getCol, Table.addCol, hi, hi']
  rw [List.map_map]
  refine List.map_congr_left (fun r hr => ?_)
  have hrl : r.length = t.cols.length := hwf r hr
  simp only [Function.comp_apply]
  exact List.getD_append r [v] Value.nan i (by rw [hrl]; exact hlt)

theorem getCol_addCol_self (t : Table) (k : String) (v : Value)
    (hwf : t.WF) (hk : k ∉ t.cols) :
    (t.addCol k v).getCol k = List.replicate t.rows.length v := by
  have hi : idxOf? k (t.cols ++ [k]) = some t.cols.length := idxOf?_append_new k t.cols hk
  simp only [Table.getCol, Table.addCol, hi]
  rw [List.map_map, List.eq_replicate_iff]
  refine ⟨by simp, fun b hb => ?_⟩
  simp only [List.mem_map, Function.comp_apply] at hb
  obtain ⟨r, hr, hbr⟩ := hb
  have hrl : r.length = t.cols.length := hwf r hr
  rw [← hbr, List.getD_append_right r [v] Value.nan t.cols.length (by omega)]
  simp [hrl]

theorem injectPartitions_cons (t : Table) (p : String × Value)
    (rest : List (String × Value)) :
    injectPartitions t (p :: rest) =
      injectPartitions (if decide (p.1 ∈ t.cols) then t else t.addCol p.1 p.2) rest := rfl

theorem inject_preserve (pi : List (String × Value)) :
    ∀ t : Table, t.WF →
      (injectPartitions t pi).WF ∧
      (injectPartitions t pi).rows.length = t.rows.length ∧
      ∀ k, k ∈ t.cols →
        k ∈ (injectPartitions t pi).cols ∧
        (injectPartitions t pi).getCol k = t.getCol k := by
  induction pi with
  | nil => exact fun t ht => ⟨ht, rfl, fun k hk => ⟨hk, rfl⟩⟩
  | cons p rest ih =>
    intro t ht
    rw [injectPartitions_cons]
    by_cases hp : p.1 ∈ t.cols
    · simp only [decide_eq_true_eq, if_pos hp]
      exact ih t ht
    · simp only [decide_eq_true_eq, if_neg hp]
      obtain ⟨h1, h2, h3⟩ := ih (t.addCol p.1 p.2) (addCol_WF t p.1 p.2 ht)
      refine ⟨h1, by rw [h2, addCol_rows_length], fun k hk => ?_⟩
      have hk' : k ∈ (t.addCol p.1 p.2).cols := by
        simp [Table.addCol, List.mem_append, hk]
      obtain ⟨hm, hg⟩ := h3 k hk'
      exact ⟨hm, by rw [hg, getCol_addCol_old t p.1 k p.2 ht hk]⟩

theorem inject_new (pi : List (String × Value)) :
    ∀ (t : Table) (k : String) (v : Value), t.WF → k ∉ t.cols →
      dictGet? pi k = some v →
      k ∈ (injectPartitions t pi).cols ∧
      (injectPartitions t pi).getCol k = List.replicate t.rows.length v := by
  induction pi with
  | nil => intro t k v _ _ h; cases h
  | cons p rest ih =>
    intro t k v ht hk hget
    rw [injectPartitions_cons]
    by_cases hpk : p.1 = k
    · subst hpk
      rw [dictGet?, if_pos rfl] at hget
      cases hget
      simp only [decide_eq_true_eq, if_neg hk]
      have hwf' := addCol_WF t p.1 p.2 ht
      obtain ⟨_, _, h3⟩ := inject_preserve rest (t.addCol p.1 p.2) hwf'
      have hmem : p.1 ∈ (t.addCol p.1 p.2).cols := by simp [Table.addCol]
      obtain ⟨hm, hg⟩ := h3 p.1 hmem
      exact ⟨hm, by rw [hg, getCol_addCol_self t p.1 p.2 ht hk]⟩
    · rw [dictGet?, if_neg hpk] at hget
      by_cases hp : p.1 ∈ t.cols
      · simp only [decide_eq_true_eq, if_pos hp]
        exact ih t k v ht hk hget
      · simp only [decide_eq_true_eq, if_neg hp]
        have hk' : k ∉ (t.addCol p.1 p.2).cols := by
          simp only [Table.addCol, List.mem_append, List.mem_singleton]
          rintro (hh | hh)
          · exact hk hh
          · exact hpk hh.symm
        have hres := ih (t.addCol p.1 p.2) k v (addCol_WF t p.1 p.2 ht) hk' hget
        rwa [addCol_rows_length] at hres

/-! ## Concatenation lemmas (line 123) -/

theorem concatOuter_cols (frames : List Table) :
    (concatOuter frames).cols = unionCols frames := rfl

theorem concatOuter_rows (frames : List Table) :
    (concatOuter frames).rows =
      (frames.map (fun t =>
        t.rows.map (fun r => reindexRow t.cols r (unionCols frames)))).flatten := rfl

theorem reindexRow_getD (tcols : List String) (row : List Value)
    (allCols : List String) (c : String) (j : Nat)
    (hj : idxOf? c allCols = some j) :
    (reindexRow tcols row allCols).getD j Value.nan =
      match idxOf? c tcols with
      | some i => row.getD i Value.nan
      | none => Value.nan := by
  have h1 : allCols[j]? = some c := idxOf?_getElem? c allCols j hj
  rw [reindexRow, List.getD_eq_getElem?_getD, List.getElem?_map, h1]
  rfl

theorem getCol_concatOuter (frames : List Table) (c : String)
    (hc : c ∈ unionCols frames) :
    (concatOuter frames).getCol c =
      (frames.map (fun t =>
        if c ∈ t.cols then t.getCol c
        else List.replicate t.rows.length Value.nan)).flatten := by
  obtain ⟨j, hj⟩ := idxOf?_some_of_mem c (unionCols frames) hc
  simp only [Table.getCol, concatOuter_cols, concatOuter_rows, hj]
  rw [List.map_flatten, List.map_map]
  congr 1
  refine List.map_congr_left (fun t _ => ?_)
  simp only [Function.comp_apply]
  rw [List.map_map]
  cases hidx : idxOf? c t.cols with
  | some i =>
    have hmem : c ∈ t.cols := by
      by_contra hcc
      rw [← idxOf?_eq_none_iff] at hcc
      rw [hcc] at hidx
      cases hidx
    rw [if_pos hmem]
    refine List.map_congr_left (fun r _ => ?_)
    simp only [Function.comp_apply]
    rw [reindexRow_getD t.cols r (unionCols frames) c j hj, hidx]
  | none =>
    have hmem : c ∉ t.cols := (idxOf?_eq_none_iff c t.cols).mp hidx
    rw [if_neg hmem, List.eq_replicate_iff]
    refine ⟨by simp, fun b hb => ?_⟩
    simp only [List.mem_map, Function.comp_apply] at hb
    obtain ⟨r, _, hbr⟩ := hb
    rw [← hbr, reindexRow_getD t.cols r (unionCols frames) c j hj, hidx]

/-! ## Unfolding the reader on an existing archive -/

theorem read_some_eq (tar : Archive) (tarName pref : String) (ek : List String)
    (ap : Option (List (String × List Value))) (cols : Option (List String))
    (mp : Option Nat) :
    read_parquet_partitions_from_tar (some tar) tarName pref ek ap cols mp =
      if (selectMembers tar pref ek ap mp).isEmpty then
        Except.error (ReadError.noMatch pref tarName)
      else
        match decodeAll ek cols (selectMembers tar pref ek ap mp) with
        | Except.error e => Except.error (ReadError.decodeError e)
        | Except.ok frames => Except.ok (concatOuter frames) := rfl

theorem read_ok_structure (tar : Archive) (tarName pref : String) (ek : List String)
    (ap : Option (List (String × List Value))) (cols : Option (List String))
    (mp : Option Nat) (out : Table)
    (hread : read_parquet_partitions_from_tar (some tar) tarName pref ek ap cols mp =
        Except.ok out) :
    ∃ frames, decodeAll ek cols (selectMembers tar pref ek ap mp) = Except.ok frames ∧
      out = concatOuter frames := by
  rw [read_some_eq] at hread
  cases hsel : (selectMembers tar pref ek ap mp).isEmpty with
  | true => rw [if_pos hsel] at hread; cases hread
  | false =>
    rw [if_neg (by simp [hsel])] at hread
    cases hda : decodeAll ek cols (selectMembers tar pref ek ap mp) with
    | error e => rw [hda] at hread; cases hread
    | ok frames =>
      rw [hda] at hread
      exact ⟨frames, rfl, by injection hread with h; exact h.symm⟩

theorem processMember_columns (m : Member) (ek : List String)
    (cols : Option (List String)) (df out : Table)
    (hdec : m.decodeFn cols = Except.ok df) (hwf : df.WF)
    (hp : processMember m ek cols = Except.ok out) (k : String) (v : Value)
    (hv : dictGet? (_parse_partitions_from_path m.name ek) k = some v) :
    (k ∈ df.cols → out.getCol k = df.getCol k) ∧
    (k ∉ df.cols → k ∈ out.cols ∧ out.getCol k = List.replicate df.rows.length v) := by
  rw [processMember, hdec] at hp
  have hout : out = injectPartitions df (_parse_partitions_from_path m.name ek) := by
    injection hp with h; exact h.symm
  subst hout
  constructor
  · intro hk
    exact ((inject_preserve _ df hwf).2.2 k hk).2
  · intro hk
    exact inject_new _ df k v hwf hk hv

/-- C3: in a successful read the unified table is the outer-union
concatenation of the per-entry frames in selection order; within each frame,
a descriptor key absent from the decoded table appears as a column uniformly
holding the descriptor's value, while a descriptor key already present keeps
the decoded column untouched; and concatenation preserves each frame's column
values (null-filling frames that lack the column), so every row carries its
own entry's values. -/
theorem c3_partition_injection_precedence :
    (∀ (tar : Archive) (tarName pref : String) (ek : List String)
        (ap : Option (List (String × List Value))) (cols : Option (List String))
        (mp : Option Nat) (out : Table),
      read_parquet_partitions_from_tar (some tar) tarName pref ek ap cols mp =
          Except.ok out →
      ∃ frames, decodeAll ek cols (selectMembers tar pref ek ap mp) =
          Except.ok frames ∧ out = concatOuter frames) ∧
    (∀ (m : Member) (ek : List String) (cols : Option (List String)) (df out : Table),
      m.decodeFn cols = Except.ok df → df.WF →
      processMember m ek cols = Except.ok out →
      ∀ (k : String) (v : Value),
        dictGet? (_parse_partitions_from_path m.name ek) k = some v →
        (k ∈ df.cols → out.getCol k = df.getCol k) ∧
        (k ∉ df.cols → k ∈ out.cols ∧
          out.getCol k = List.replicate df.rows.length v)) ∧
    (∀ (frames : List Table) (c : String), c ∈ unionCols frames →
      (concatOuter frames).getCol c =
        (frames.map (fun t =>
          if c ∈ t.cols then t.getCol c
          else List.replicate t.rows.length Value.nan)).flatten) :=
  ⟨fun tar tarName pref ek ap cols mp out h =>
      read_ok_structure tar tarName pref ek ap cols mp out h,
   fun m ek cols df out hdec hwf hp k v hv =>
      processMember_columns m ek cols df out hdec hwf hp k v hv,
   fun frames c hc => getCol_concatOuter frames c hc⟩

/-- Witness for C3: the concrete member `data/fold=1/a.parquet` decoding to a
table without a `fold` column gains a `fold` column uniformly equal to 1. -/
theorem c3_partition_injection_precedence_witness :
    "fold" ∈ wOut.cols ∧ wOut.getCol "fold" = List.replicate 1 (Value.int 1) :=
  ((c3_partition_injection_precedence.2.1 wFoldMember ["fold"] none wDf wOut
      rfl (by decide) rfl "fold" (Value.int 1) rfl).2) (by decide)

/-! ## Partition-filter semantics (lines 93-105) -/

theorem memberAllowed_eq_true_iff (m : Member) (ek : List String)
    (ap : List (String × List Value)) :
    memberAllowed m ek ap = true ↔
      ∀ ka ∈ ap, ∀ v,
        dictGet? (_parse_partitions_from_path m.name ek) ka.1 = some v →
        v ∈ ka.2 := by
  rw [memberAllowed, List.all_eq_true]
  constructor
  · intro h ka hka v hv
    have hk := h ka hka
    rw [hv] at hk
    exact of_decide_eq_true hk
  · intro h ka hka
    cases hv : dictGet? (_parse_partitions_from_path m.name ek) ka.1 with
    | none => rfl
    | some v => exact decide_eq_true (h ka hka v hv)

theorem truncateParts_length_some (l : List Member) (k : Nat) :
    (truncateParts l (some k)).length = min l.length k := by
  rw [truncateParts]
  by_cases h : l.length > k
  · rw [if_pos h, List.length_take]
    omega
  · rw [if_neg h]
    omega

/-- Counterexample to C4 as stated: with the filter `fold ∈ {0, 1}`, the entry
`data/a.parquet` (no `fold=` path segment, hence unconstrained by the
open-world filter) is retained, and its decoded table's own `fold` column
carries the value 5 into the result — so not every row of the filtered result
has `fold` in `{0, 1}` where `fold` is present. -/
theorem c4_counterexample_decoded_fold_escapes_filter :
    read_parquet_partitions_from_tar (some cxArch) "t.tar.gz" "data/" ["fold"]
        (some fold01) none none =
      Except.ok ⟨["fold"], [[Value.int 5]]⟩ ∧
    Value.int 5 ∈ Table.getCol ⟨["fold"], [[Value.int 5]]⟩ "fold" ∧
    Value.int 5 ∉ [Value.int 0, Value.int 1] :=
  ⟨rfl, by decide, by decide⟩

/-- C4 amended: an entry is retained exactly when every filter key carried by
its descriptor has an allowed value (keys absent from the descriptor impose no
exclusion); the filtered candidate list is a sublist of the unfiltered one and
the final selection's entry count never exceeds the unfiltered selection's;
and with `fold` restricted to `{0, 1}` every retained entry's descriptor
`fold` — hence every path-injected `fold` cell — lies in `{0, 1}` (a `fold`
column decoded from the entry's own payload is outside the filter's reach). -/
theorem c4_amended_filter_semantics :
    (∀ (ms : List Member) (ek : List String) (ap : List (String × List Value))
        (m : Member),
      m ∈ filterAllowed ms ek (some ap) ↔
        m ∈ ms ∧ ∀ ka ∈ ap, ∀ v,
          dictGet? (_parse_partitions_from_path m.name ek) ka.1 = some v →
          v ∈ ka.2) ∧
    (∀ (ms : List Member) (ek : List String)
        (ap? : Option (List (String × List Value))),
      (filterAllowed ms ek ap?).Sublist ms) ∧
    (∀ (tar : Archive) (pref : String) (ek : List String)
        (ap : List (String × List Value)) (mp : Option Nat),
      (selectMembers tar pref ek (some ap) mp).length ≤
        (selectMembers tar pref ek none mp).length) ∧
    (∀ (ms : List Member) (ek : List String) (m : Member) (v : Value),
      m ∈ filterAllowed ms ek (some fold01) →
      dictGet? (_parse_partitions_from_path m.name ek) "fold" = some v →
      v = Value.int 0 ∨ v = Value.int 1) := by
  have hiff : ∀ (ms : List Member) (ek : List String)
      (ap : List (String × List Value)) (m : Member),
      m ∈ filterAllowed ms ek (some ap) ↔
        m ∈ ms ∧ ∀ ka ∈ ap, ∀ v,
          dictGet? (_parse_partitions_from_path m.name ek) ka.1 = some v →
          v ∈ ka.2 := by
    intro ms ek ap m
    rw [filterAllowed]
    by_cases hap : ap.isEmpty
    · rw [if_pos hap]
      have hap' : ap = [] := List.isEmpty_iff.mp hap
      subst hap'
      simp
    · rw [if_neg hap, List.mem_filter, memberAllowed_eq_true_iff]
  have hsub : ∀ (ms : List Member) (ek : List String)
      (ap? : Option (List (String × List Value))),
      (filterAllowed ms ek ap?).Sublist ms := by
    intro ms ek ap?
    cases ap? with
    | none => exact List.Sublist.refl ms
    | some ap =>
      rw [filterAllowed]
      by_cases hap : ap.isEmpty
      · rw [if_pos hap]
      · rw [if_neg hap]
        exact List.filter_sublist ms
  refine ⟨hiff, hsub, fun tar pref ek ap mp => ?_, fun ms ek m v hm hv => ?_⟩
  · have hlen : (filterAllowed (candidateMembers tar pref) ek (some ap)).length ≤
        (candidateMembers tar pref).length :=
      (hsub (candidateMembers tar pref) ek (some ap)).length_le
    rw [selectMembers, selectMembers]
    have hbase : filterAllowed (candidateMembers tar pref) ek none =
        candidateMembers tar pref := rfl
    rw [hbase]
    cases mp with
    | none => exact hlen
    | some k =>
      rw [truncateParts_length_some, truncateParts_length_some]
      omega
  · have hprop := ((hiff ms ek fold01 m).mp hm).2 ("fold", [Value.int 0, Value.int 1])
      (by simp [fold01]) v hv
    simpa using hprop

/-- Witness for C4 (amended) at the concrete retained member
`data/fold=1/a.parquet`: its descriptor `fold` is forced into `{0, 1}`. -/
theorem c4_amended_filter_semantics_witness :
    Value.int 1 = Value.int 0 ∨ Value.int 1 = Value.int 1 :=
  c4_amended_filter_semantics.2.2.2 [wFoldMember] ["fold"] wFoldMember
    (Value.int 1)
    (show wFoldMember ∈ [wFoldMember] from List.mem_singleton.mpr rfl) rfl

/-! ## Prevalence lemmas -/

theorem insertByLabel_perm (x : String × List (String × ℚ))
    (l : List (String × List (String × ℚ))) :
    (insertByLabel x l).Perm (x :: l) := by
  induction l with
  | nil => exact List.Perm.refl _
  | cons y ys ih =>
    rw [insertByLabel]
    by_cases h : strLt y.1 x.1
    · rw [if_pos h]
      exact (ih.cons y).trans (List.Perm.swap x y ys)
    · rw [if_neg h]

theorem sortByLabel_perm (l : List (String × List (String × ℚ))) :
    (sortByLabel l).Perm l := by
  induction l with
  | nil => exact List.Perm.refl _
  | cons x xs ih =>
    have hx : sortByLabel (x :: xs) = insertByLabel x (sortByLabel xs) := rfl
    rw [hx]
    exact (insertByLabel_perm x (sortByLabel xs)).trans (ih.cons x)

theorem map_fst_map_pair {α β : Type} (l : List α) (g : α → β) :
    (l.map (fun c => (c, g c))).map Prod.fst = l := by
  induction l with
  | nil => rfl
  | cons x xs ih => simp only [List.map_cons, ih]

theorem numCells_binary (vs : List Value)
    (h01 : ∀ v ∈ vs, v = Value.int 0 ∨ v = Value.int 1) :
    (numCells vs).length = vs.length ∧
    ((numCells vs).map (fun (n : Int) => (n : ℚ))).sum =
      (vs.count (Value.int 1) : ℚ) := by
  induction vs with
  | nil => simp [numCells]
  | cons v vs ih =>
    have hrest := ih (fun w hw => h01 w (List.mem_cons_of_mem v hw))
    have hv := h01 v (List.mem_cons_self v vs)
    have hcons0 : numCells (Value.int 0 :: vs) = 0 :: numCells vs := rfl
    have hcons1 : numCells (Value.int 1 :: vs) = 1 :: numCells vs := rfl
    rcases hv with hv | hv
    · subst hv
      rw [hcons0]
      refine ⟨by simp [hrest.1], ?_⟩
      rw [List.map_cons, List.sum_cons, hrest.2,
        List.count_cons_of_ne (by decide : Value.int 1 ≠ Value.int 0)]
      norm_num
    · subst hv
      rw [hcons1]
      refine ⟨by simp [hrest.1], ?_⟩
      rw [List.map_cons, List.sum_cons, hrest.2, List.count_cons_self]
      push_cast
      ring

theorem rowInsert_keys (out : List (String × List (String × ℚ))) (k : String)
    (v : List (String × ℚ)) :
    (rowInsert out k v).map Prod.fst = keyInsert (out.map Prod.fst) k := by
  induction out with
  | nil => simp [rowInsert, keyInsert]
  | cons p ps ih =>
    rw [rowInsert]
    by_cases hp : p.1 = k
    · subst hp
      simp [keyInsert]
    · rw [if_neg hp, List.map_cons, List.map_cons, ih, keyInsert, keyInsert]
      by_cases hk : k ∈ ps.map Prod.fst
      · rw [if_pos hk, if_pos (List.mem_cons.mpr (Or.inr hk))]
      · rw [if_neg hk,
          if_neg (fun hm => (List.mem_cons.mp hm).elim
            (fun hh => hp hh.symm) hk),
          List.cons_append]

theorem foldl_rowInsert_keys {α : Type} (key : α → String)
    (row : α → List (String × ℚ)) :
    ∀ (xs : List α) (out : List (String × List (String × ℚ))),
    (xs.foldl (fun o x => rowInsert o (key x) (row x)) out).map Prod.fst =
      xs.foldl (fun ks x => keyInsert ks (key x)) (out.map Prod.fst) := by
  intro xs
  induction xs with
  | nil => intro out; rfl
  | cons x xs ih =>
    intro out
    rw [List.foldl_cons, List.foldl_cons, ih, rowInsert_keys]

theorem foldl_keyInsert_fresh :
    ∀ (xs ks0 acc : List String), (∀ x ∈ xs, x ∉ ks0) →
    xs.foldl keyInsert (ks0 ++ acc) = ks0 ++ xs.foldl keyInsert acc := by
  intro xs
  induction xs with
  | nil => intro ks0 acc _; rfl
  | cons x xs ih =>
    intro ks0 acc hf
    rw [List.foldl_cons, List.foldl_cons]
    have hx : x ∉ ks0 := hf x (List.mem_cons_self x xs)
    have hrest : ∀ y ∈ xs, y ∉ ks0 := fun y hy => hf y (List.mem_cons_of_mem x hy)
    have hkey : keyInsert (ks0 ++ acc) x = ks0 ++ keyInsert acc x := by
      rw [keyInsert, keyInsert]
      by_cases ha : x ∈ acc
      · rw [if_pos (List.mem_append.mpr (Or.inr ha)), if_pos ha]
      · rw [if_neg (fun hm => (List.mem_append.mp hm).elim hx ha), if_neg ha,
          List.append_assoc]
    rw [hkey, ih ks0 (keyInsert acc x) hrest]

theorem foldl_keyInsert_eq_append (xs ks0 : List String)
    (h : ∀ x ∈ xs, x ∉ ks0) :
    xs.foldl keyInsert ks0 = ks0 ++ distinctStrs xs := by
  have hsplit := foldl_keyInsert_fresh xs ks0 [] h
  rw [List.append_nil] at hsplit
  rw [hsplit]
  rfl

theorem stage_keys {α : Type} (key : α → String) (row : α → List (String × ℚ))
    (xs : List α) (out : List (String × List (String × ℚ)))
    (hfresh : ∀ x ∈ xs, key x ∉ out.map Prod.fst) :
    (xs.foldl (fun o x => rowInsert o (key x) (row x)) out).map Prod.fst =
      out.map Prod.fst ++ distinctStrs (xs.map key) := by
  have hf : ∀ s ∈ xs.map key, s ∉ out.map Prod.fst := by
    intro s hs
    obtain ⟨x, hx, hxs⟩ := List.mem_map.mp hs
    exact hxs ▸ hfresh x hx
  rw [foldl_rowInsert_keys key row xs out, ← List.foldl_map,
    foldl_keyInsert_eq_append (xs.map key) (out.map Prod.fst) hf]

theorem mem_rowInsert (out : List (String × List (String × ℚ))) (k : String)
    (v : List (String × ℚ)) (p : String × List (String × ℚ))
    (hp : p ∈ rowInsert out k v) : p = (k, v) ∨ p ∈ out := by
  induction out with
  | nil => simpa [rowInsert] using hp
  | cons q qs ih =>
    rw [rowInsert] at hp
    by_cases hq : q.1 = k
    · rw [if_pos hq] at hp
      rcases List.mem_cons.mp hp with h | h
      · exact Or.inl h
      · exact Or.inr (List.mem_cons_of_mem q h)
    · rw [if_neg hq] at hp
      rcases List.mem_cons.mp hp with h | h
      · exact Or.inr (h ▸ List.mem_cons_self q qs)
      · rcases ih h with h' | h'
        · exact Or.inl h'
        · exact Or.inr (List.mem_cons_of_mem q h')

theorem mem_foldl_rowInsert {α : Type} (key : α → String)
    (row : α → List (String × ℚ)) :
    ∀ (xs : List α) (out : List (String × List (String × ℚ)))
      (p : String × List (String × ℚ)),
    p ∈ xs.foldl (fun o x => rowInsert o (key x) (row x)) out →
    p ∈ out ∨ ∃ x ∈ xs, p = (key x, row x) := by
  intro xs
  induction xs with
  | nil => intro out p hp; exact Or.inl hp
  | cons x xs ih =>
    intro out p hp
    rw [List.foldl_cons] at hp
    rcases ih (rowInsert out (key x) (row x)) p hp with h | h
    · rcases mem_rowInsert out (key x) (row x) p h with h' | h'
      · exact Or.inr ⟨x, List.mem_cons_self x xs, h'⟩
      · exact Or.inl h'
    · obtain ⟨y, hy, hyp⟩ := h
      exact Or.inr ⟨y, List.mem_cons_of_mem x hy, hyp⟩

theorem mem_foldl_keyInsert (s : String) :
    ∀ (xs acc : List String), s ∈ xs.foldl keyInsert acc → s ∈ acc ∨ s ∈ xs := by
  intro xs
  induction xs with
  | nil => intro acc h; exact Or.inl h
  | cons x xs ih =>
    intro acc h
    rw [List.foldl_cons] at h
    rcases ih (keyInsert acc x) h with h' | h'
    · rw [keyInsert] at h'
      by_cases hx : x ∈ acc
      · rw [if_pos hx] at h'
        exact Or.inl h'
      · rw [if_neg hx] at h'
        rcases List.mem_append.mp h' with h'' | h''
        · exact Or.inl h''
        · refine Or.inr ?_
          rw [List.mem_singleton.mp h'']
          exact List.mem_cons_self x xs
    · exact Or.inr (List.mem_cons_of_mem x h')

theorem mem_distinctStrs (xs : List String) (s : String)
    (h : s ∈ distinctStrs xs) : s ∈ xs := by
  rcases mem_foldl_keyInsert s xs [] h with h' | h'
  · cases h'
  · exact h'

theorem mon_label_ne_all (s : String) : ("mon=" ++ s) ≠ "ALL" := by
  intro h
  have hd : 'm' :: 'o' :: 'n' :: '=' :: s.data = ['A', 'L', 'L'] :=
    congrArg String.data h
  injection hd with h1 _
  exact absurd h1 (by decide)

theorem fold_label_ne_all (s : String) : ("fold=" ++ s) ≠ "ALL" := by
  intro h
  have hd : 'f' :: 'o' :: 'l' :: 'd' :: '=' :: s.data = ['A', 'L', 'L'] :=
    congrArg String.data h
  injection hd with h1 _
  exact absurd h1 (by decide)

theorem fold_label_ne_mon_label (s t : String) :
    ("fold=" ++ s) ≠ ("mon=" ++ t) := by
  intro h
  have hd : 'f' :: 'o' :: 'l' :: 'd' :: '=' :: s.data =
      'm' :: 'o' :: 'n' :: '=' :: t.data := congrArg String.data h
  injection hd with h1 _
  exact absurd h1 (by decide)

/-- Counterexample to C9 as stated: the table `dfMixed` has two distinct
months in its `mon` column (the integer `1` and the string `"1"`), but both
format to the dict key `mon=1`, whose second write overwrites the first — the
result has 2 rows (`ALL` and one `mon=1` row), not one row per distinct
month (which would be 3). -/
theorem c9_counterexample_label_collision :
    (groupKeys (Table.getCol dfMixed "mon")).length = 2 ∧
    Value.int 1 ≠ Value.str "1" ∧
    (prevalence_table dfMixed).length = 2 ∧
    ¬((prevalence_table dfMixed).length =
        1 + (groupKeys (Table.getCol dfMixed "mon")).length) := by
  decide

/-- C9 amended: the prevalence table has one row per distinct group label —
"ALL", plus one row per distinct formatted label `mon=...` when the `mon`
column exists and one per distinct formatted label `fold=...` when the `fold`
column exists (distinct group values whose labels coincide collapse into one
row, the later dict write overwriting the earlier) — and every row has one
entry per recognised target column; over 0/1 indicator cells each entry is
the fraction of positive rows of its group; no recognised target column means
an empty result; and on the table with `target_1 = [1,0,1,0]` the "ALL" row
carries `target_1 = 1/2`. -/
theorem c9_amended_prevalence_rows_and_fractions :
    (∀ df : Table, presentTargets df = [] → prevalence_table df = []) ∧
    (∀ df : Table, presentTargets df ≠ [] →
      (prevalence_table df).length =
        1 + (if "mon" ∈ df.cols then
              (distinctStrs ((groupKeys (df.getCol "mon")).map
                (fun v => "mon=" ++ valLabel v))).length
            else 0)
          + (if "fold" ∈ df.cols then
              (distinctStrs ((groupKeys (df.getCol "fold")).map
                (fun v => "fold=" ++ valLabel v))).length
            else 0) ∧
      ∀ row ∈ prevalence_table df, row.2.map Prod.fst = presentTargets df) ∧
    (∀ vs : List Value, (∀ v ∈ vs, v = Value.int 0 ∨ v = Value.int 1) →
      colMeanQ vs = (vs.count (Value.int 1) : ℚ) / (vs.length : ℚ)) ∧
    prevalence_table wTargets = [("ALL", [("target_1", (1 : ℚ) / 2)])] := by
  have hmean : ∀ vs : List Value, (∀ v ∈ vs, v = Value.int 0 ∨ v = Value.int 1) →
      colMeanQ vs = (vs.count (Value.int 1) : ℚ) / (vs.length : ℚ) := by
    intro vs h01
    obtain ⟨hlen, hsum⟩ := numCells_binary vs h01
    rw [colMeanQ, hlen, hsum]
  refine ⟨fun df h => ?_, fun df h => ?_, hmean, ?_⟩
  · rw [prevalence_table]
    simp [h]
  · have hne : ¬((presentTargets df).isEmpty = true) := by
      simp only [List.isEmpty_iff]
      exact h
    rw [prevalence_table]
    simp only [if_neg hne]
    have hk0 : (rowInsert [] "ALL" ((presentTargets df).map
        (fun c => (c, colMeanQ (df.getCol c))))).map Prod.fst = ["ALL"] := rfl
    have hstage_mon : ∀ (out : List (String × List (String × ℚ))),
        (∀ q ∈ out, q.2.map Prod.fst = presentTargets df) →
        ∀ p ∈ (groupKeys (df.getCol "mon")).foldl (fun o v =>
            rowInsert o ("mon=" ++ valLabel v)
              ((presentTargets df).map (fun c =>
                (c, colMeanQ ((groupTable df "mon" v).getCol c))))) out,
          p.2.map Prod.fst = presentTargets df := by
      intro out hout p hp
      rcases mem_foldl_rowInsert (fun v => "mon=" ++ valLabel v)
          (fun v => (presentTargets df).map (fun c =>
            (c, colMeanQ ((groupTable df "mon" v).getCol c))))
          (groupKeys (df.getCol "mon")) out p hp with h1 | ⟨v, _, hveq⟩
      · exact hout p h1
      · rw [hveq]
        exact map_fst_map_pair _ _
    have hstage_fold : ∀ (out : List (String × List (String × ℚ))),
        (∀ q ∈ out, q.2.map Prod.fst = presentTargets df) →
        ∀ p ∈ (groupKeys (df.getCol "fold")).foldl (fun o v =>
            rowInsert o ("fold=" ++ valLabel v)
              ((presentTargets df).map (fun c =>
                (c, colMeanQ ((groupTable df "fold" v).getCol c))))) out,
          p.2.map Prod.fst = presentTargets df := by
      intro out hout p hp
      rcases mem_foldl_rowInsert (fun v => "fold=" ++ valLabel v)
          (fun v => (presentTargets df).map (fun c =>
            (c, colMeanQ ((groupTable df "fold" v).getCol c))))
          (groupKeys (df.getCol "fold")) out p hp with h1 | ⟨v, _, hveq⟩
      · exact hout p h1
      · rw [hveq]
        exact map_fst_map_pair _ _
    have hbase : ∀ q ∈ rowInsert [] "ALL" ((presentTargets df).map
        (fun c => (c, colMeanQ (df.getCol c)))), q.2.map Prod.fst = presentTargets df := by
      intro q hq
      have hq' : q = ("ALL", (presentTargets df).map
          (fun c => (c, colMeanQ (df.getCol c)))) := List.mem_singleton.mp hq
      rw [hq']
      exact map_fst_map_pair _ _
    constructor
    · rw [(sortByLabel_perm _).length_eq]
      by_cases hmon : "mon" ∈ df.cols
      · rw [if_pos hmon, if_pos hmon]
        have hfresh1 : ∀ v ∈ groupKeys (df.getCol "mon"),
            ("mon=" ++ valLabel v) ∉ (rowInsert [] "ALL" ((presentTargets df).map
              (fun c => (c, colMeanQ (df.getCol c))))).map Prod.fst := by
          intro v _ hmem
          rw [hk0] at hmem
          exact mon_label_ne_all (valLabel v) (List.mem_singleton.mp hmem)
        have hk1 := stage_keys (fun v => "mon=" ++ valLabel v)
          (fun v => (presentTargets df).map (fun c =>
            (c, colMeanQ ((groupTable df "mon" v).getCol c))))
          (groupKeys (df.getCol "mon")) _ hfresh1
        rw [hk0] at hk1
        by_cases hfold : "fold" ∈ df.cols
        · rw [if_pos hfold, if_pos hfold]
          have hfresh2 : ∀ v ∈ groupKeys (df.getCol "fold"),
              ("fold=" ++ valLabel v) ∉ ((groupKeys (df.getCol "mon")).foldl
                (fun o v => rowInsert o ("mon=" ++ valLabel v)
                  ((presentTargets df).map (fun c =>
                    (c, colMeanQ ((groupTable df "mon" v).getCol c)))))
                (rowInsert [] "ALL" ((presentTargets df).map
                  (fun c => (c, colMeanQ (df.getCol c)))))).map Prod.fst := by
            intro v _ hmem
            rw [hk1] at hmem
            rcases List.mem_append.mp hmem with hm | hm
            · exact fold_label_ne_all (valLabel v) (List.mem_singleton.mp hm)
            · obtain ⟨w, _, hw⟩ := List.mem_map.mp (mem_distinctStrs _ _ hm)
              exact fold_label_ne_mon_label (valLabel v) (valLabel w) hw.symm
          have hk2 := stage_keys (fun v => "fold=" ++ valLabel v)
            (fun v => (presentTargets df).map (fun c =>
              (c, colMeanQ ((groupTable df "fold" v).getCol c))))
            (groupKeys (df.getCol "fold")) _ hfresh2
          rw [hk1] at hk2
          rw [← List.length_map _ Prod.fst, hk2]
          simp only [List.length_append, List.length_singleton]
        · rw [if_neg hfold, if_neg hfold]
          rw [← List.length_map _ Prod.fst, hk1]
          simp only [List.length_append, List.length_singleton]
          omega
      · rw [if_neg hmon, if_neg hmon]
        by_cases hfold : "fold" ∈ df.cols
        · rw [if_pos hfold, if_pos hfold]
          have hfresh2 : ∀ v ∈ groupKeys (df.getCol "fold"),
              ("fold=" ++ valLabel v) ∉ (rowInsert [] "ALL" ((presentTargets df).map
                (fun c => (c, colMeanQ (df.getCol c))))).map Prod.fst := by
            intro v _ hmem
            rw [hk0] at hmem
            exact fold_label_ne_all (valLabel v) (List.mem_singleton.mp hmem)
          have hk2 := stage_keys (fun v => "fold=" ++ valLabel v)
            (fun v => (presentTargets df).map (fun c =>
              (c, colMeanQ ((groupTable df "fold" v).getCol c))))
            (groupKeys (df.getCol "fold")) _ hfresh2
          rw [hk0] at hk2
          rw [← List.length_map _ Prod.fst, hk2]
          simp only [List.length_append, List.length_singleton]
        · rw [if_neg hfold, if_neg hfold]
          rw [← List.length_map _ Prod.fst, hk0]
          rfl
    · intro row hrow
      rw [List.Perm.mem_iff (sortByLabel_perm _)] at hrow
      by_cases hfold : "fold" ∈ df.cols
      · rw [if_pos hfold] at hrow
        refine hstage_fold _ ?_ row hrow
        intro q hq
        by_cases hmon : "mon" ∈ df.cols
        · rw [if_pos hmon] at hq
          exact hstage_mon _ hbase q hq
        · rw [if_neg hmon] at hq
          exact hbase q hq
      · rw [if_neg hfold] at hrow
        by_cases hmon : "mon" ∈ df.cols
        · rw [if_pos hmon] at hrow
          exact hstage_mon _ hbase row hrow
        · rw [if_neg hmon] at hrow
          exact hbase row hrow
  · simp +decide [prevalence_table, presentTargets, targetColNames, wTargets,
      Table.getCol, idxOf?, groupKeys, distinctVals, sortByLabel, insertByLabel,
      rowInsert, colMeanQ, numCells]
    norm_num

/-- Witness for C9's fraction clause at the column `[1, 0, 1, 0]`. -/
theorem c9_amended_prevalence_rows_and_fractions_witness :
    colMeanQ [Value.int 1, Value.int 0, Value.int 1, Value.int 0] =
      (([Value.int 1, Value.int 0, Value.int 1, Value.int 0].count
          (Value.int 1) : ℚ)) /
        (([Value.int 1, Value.int 0, Value.int 1, Value.int 0].length : ℚ)) :=
  c9_amended_prevalence_rows_and_fractions.2.2.1
    [Value.int 1, Value.int 0, Value.int 1, Value.int 0] (by decide)

end EdaModel
